import Mathlib

/-!
Verification of the `url-search-params` library (src/src/lib.rs).

Strings are modelled as `List Char`; the Rust `HashMap<String, String>` is
modelled as an association list with pairwise-distinct keys.  Each Lean
definition below is a direct transcription of the corresponding Rust item.
-/

namespace UrlSearchParams

/-- The apostrophe character (`SYMBOL.single_quote` in the source). -/
def squote : Char := Char.ofNat 39

/-- Model of Rust `str::replace`: leftmost, non-overlapping replacement of
`pat` by `rep`, the replacement text is not rescanned.  The scanner walks the
string one character at a time; after a match it emits `rep` once and skips
the remaining `pat.length - 1` matched characters, counted down by the first
argument.  Every call site in the source uses a nonempty pattern; for an
empty pattern this model returns the string unchanged. -/
def replaceGo (pat rep : List Char) : Nat → List Char → List Char
  | _, [] => []
  | skip + 1, _ :: rest => replaceGo pat rep skip rest
  | 0, c :: rest =>
    if pat.isPrefixOf (c :: rest) ∧ pat ≠ [] then
      rep ++ replaceGo pat rep (pat.length - 1) rest
    else
      c :: replaceGo pat rep 0 rest

/-- `s.replace(pat, rep)` from Rust. -/
def replaceAll (s pat rep : List Char) : List Char :=
  replaceGo pat rep 0 s

/-- Model of Rust `str::split` with a single-character pattern, as used with
`"&"` and `"="` in `parse_url_search_params`.  `"".split(p) = [""]`,
`"a&&b".split("&") = ["a", "", "b"]`. -/
def splitOnChar (sep : Char) : List Char → List (List Char)
  | [] => [[]]
  | c :: rest =>
    if c = sep then
      [] :: splitOnChar sep rest
    else
      match splitOnChar sep rest with
      | [] => [[c]]
      | t :: ts => (c :: t) :: ts

/-- Model of Rust `Vec::join` with a single-character separator. -/
def joinSep (sep : Char) : List (List Char) → List Char
  | [] => []
  | [t] => t
  | t :: ts => t ++ sep :: joinSep sep ts

/-- Model of Rust `str::trim` (whitespace stripped from both ends; we use
Lean's ASCII `Char.isWhitespace`, which agrees with Rust on ASCII input). -/
def trimBoth (s : List Char) : List Char :=
  ((s.dropWhile Char.isWhitespace).reverse.dropWhile Char.isWhitespace).reverse

/-- Model of `HashMap::insert`: if the key is present its value is updated
(the stored key is kept), otherwise the pair is added. -/
def insertKV (m : List (List Char × List Char)) (k v : List Char) :
    List (List Char × List Char) :=
  if m.any (fun p => p.1 == k) then
    m.map (fun p => if p.1 == k then (p.1, v) else p)
  else
    m ++ [(k, v)]

/-- `encode_uri_component` from the source: a chain of 22 `replace` calls,
`%` first. -/
def encode_uri_component (component : List Char) : List Char :=
  let r := replaceAll component ['%'] ['%', '2', '5']
  let r := replaceAll r [' '] ['%', '2', '0']
  let r := replaceAll r ['\r'] ['%', '0', 'D']
  let r := replaceAll r ['\n'] ['%', '0', 'A']
  let r := replaceAll r ['!'] ['%', '2', '1']
  let r := replaceAll r ['"'] ['%', '2', '2']
  let r := replaceAll r ['#'] ['%', '2', '3']
  let r := replaceAll r ['$'] ['%', '2', '4']
  let r := replaceAll r ['&'] ['%', '2', '6']
  let r := replaceAll r [squote] ['%', '2', '7']
  let r := replaceAll r ['('] ['%', '2', '8']
  let r := replaceAll r [')'] ['%', '2', '9']
  let r := replaceAll r ['*'] ['%', '2', 'A']
  let r := replaceAll r ['+'] ['%', '2', 'B']
  let r := replaceAll r [','] ['%', '2', 'C']
  let r := replaceAll r ['/'] ['%', '2', 'F']
  let r := replaceAll r [':'] ['%', '3', 'A']
  let r := replaceAll r [';'] ['%', '3', 'B']
  let r := replaceAll r ['='] ['%', '3', 'D']
  let r := replaceAll r ['@'] ['%', '4', '0']
  let r := replaceAll r ['['] ['%', '5', 'B']
  let r := replaceAll r [']'] ['%', '5', 'D']
  r

/-- `decode_uri_component` from the source: a chain of 23 `replace` calls in
the source's order (`%25` is applied eighth, between `%24` and `%26`). -/
def decode_uri_component (component : List Char) : List Char :=
  let r := replaceAll component ['%', '2', '0'] [' ']
  let r := replaceAll r ['%', '0', 'A'] ['\n']
  let r := replaceAll r ['%', '0', 'D'] ['\r']
  let r := replaceAll r ['%', '2', '1'] ['!']
  let r := replaceAll r ['%', '2', '2'] ['"']
  let r := replaceAll r ['%', '2', '3'] ['#']
  let r := replaceAll r ['%', '2', '4'] ['$']
  let r := replaceAll r ['%', '2', '5'] ['%']
  let r := replaceAll r ['%', '2', '6'] ['&']
  let r := replaceAll r ['%', '2', '7'] [squote]
  let r := replaceAll r ['%', '2', '8'] ['(']
  let r := replaceAll r ['%', '2', '9'] [')']
  let r := replaceAll r ['%', '2', 'A'] ['*']
  let r := replaceAll r ['%', '2', 'B'] ['+']
  let r := replaceAll r ['%', '2', 'C'] [',']
  let r := replaceAll r ['%', '2', 'F'] ['/']
  let r := replaceAll r ['%', '3', 'A'] [':']
  let r := replaceAll r ['%', '3', 'B'] [';']
  let r := replaceAll r ['%', '3', 'D'] ['=']
  let r := replaceAll r ['%', '3', 'F'] ['?']
  let r := replaceAll r ['%', '4', '0'] ['@']
  let r := replaceAll r ['%', '5', 'B'] ['[']
  let r := replaceAll r ['%', '5', 'D'] [']']
  r

/-- `parse_url_search_params` from the source. -/
def parse_url_search_params (params : List Char) : List (List Char × List Char) :=
  if trimBoth params = [] then
    []
  else
    (splitOnChar '&' params).foldl
      (fun params_map param =>
        let kv := splitOnChar '=' param
        let key := kv.headD []
        let value := (kv.drop 1).headD []
        if key ≠ [] then
          insertKV params_map (decode_uri_component key) (decode_uri_component value)
        else
          params_map)
      []

/-- ASCII fragment of `str::to_lowercase`: `Char.toLower` folds `A`-`Z` and
leaves every other character unchanged, whereas Rust also lowercases
non-ASCII letters.  On strings of ASCII characters the two functions agree
exactly; statements about the builder's comparator are therefore stated
only for ASCII serializations (see `C8_build_order_independent`). -/
def toLowerChars (s : List Char) : List Char := s.map Char.toLower

/-- The comparator `|a, b| a.to_lowercase().cmp(&b.to_lowercase())` used by
`sort_by` in the builder, rendered as a `≤` test.  `str::cmp` is the
lexicographic order on code points (UTF-8 byte order coincides with
code-point order), which is the `≤` of `List Char`. -/
def pairLe (a b : List Char) : Bool :=
  decide (toLowerChars a ≤ toLowerChars b)

/-- The pair string `encoded-key = encoded-value` built for one entry. -/
def serializePair (p : List Char × List Char) : List Char :=
  encode_uri_component p.1 ++ '=' :: encode_uri_component p.2

/-- `build_url_search_params` from the source: serialize each entry as
`encoded-key = encoded-value`, sort the pair strings by the case-insensitive
comparator with a stable sort (`sort_by` in Rust, `mergeSort` here), then
join with `&`. -/
def build_url_search_params (params : List (List Char × List Char)) : List Char :=
  let key_value_list := params.map serializePair
  let sorted := key_value_list.mergeSort pairLe
  joinSep '&' sorted

/-! ### Basic facts about `replaceAll` -/

theorem replaceGo_skip (pat rep : List Char) :
    ∀ (l : List Char) (k : Nat),
      replaceGo pat rep k l = replaceGo pat rep 0 (l.drop k) := by
  intro l
  induction l with
  | nil => intro k; cases k <;> rfl
  | cons c rest ih =>
    intro k
    cases k with
    | zero => rfl
    | succ k =>
      show replaceGo pat rep k rest = _
      rw [ih k, List.drop_succ_cons]

theorem replaceAll_nil (pat rep : List Char) : replaceAll [] pat rep = [] := rfl

theorem replaceAll_cons_pos {pat : List Char} {c : Char} {rest : List Char}
    (h : pat.isPrefixOf (c :: rest)) (hp : pat ≠ []) (rep : List Char) :
    replaceAll (c :: rest) pat rep
      = rep ++ replaceAll ((c :: rest).drop pat.length) pat rep := by
  obtain ⟨p0, pt, rfl⟩ := List.exists_cons_of_ne_nil hp
  show replaceGo (p0 :: pt) rep 0 (c :: rest) = _
  rw [show replaceGo (p0 :: pt) rep 0 (c :: rest)
      = if (p0 :: pt).isPrefixOf (c :: rest) ∧ (p0 :: pt) ≠ [] then
          rep ++ replaceGo (p0 :: pt) rep ((p0 :: pt).length - 1) rest
        else
          c :: replaceGo (p0 :: pt) rep 0 rest from rfl]
  rw [if_pos (And.intro h hp)]
  rw [replaceGo_skip (p0 :: pt) rep rest ((p0 :: pt).length - 1)]
  rw [show (p0 :: pt).length - 1 = pt.length from rfl]
  rw [show ((c :: rest).drop (p0 :: pt).length) = rest.drop pt.length from rfl]
  rfl

theorem replaceAll_cons_neg {pat : List Char} {c : Char} {rest : List Char}
    (h : ¬(pat.isPrefixOf (c :: rest) ∧ pat ≠ [])) (rep : List Char) :
    replaceAll (c :: rest) pat rep = c :: replaceAll rest pat rep := by
  show replaceGo pat rep 0 (c :: rest) = _
  rw [show replaceGo pat rep 0 (c :: rest)
      = if pat.isPrefixOf (c :: rest) ∧ pat ≠ [] then
          rep ++ replaceGo pat rep (pat.length - 1) rest
        else
          c :: replaceGo pat rep 0 rest from rfl]
  rw [if_neg h]
  rfl

theorem replaceAll_cons_not_pre {pat : List Char} {c : Char} {rest : List Char}
    (h : ¬ pat.isPrefixOf (c :: rest)) (rep : List Char) :
    replaceAll (c :: rest) pat rep = c :: replaceAll rest pat rep :=
  replaceAll_cons_neg (fun hc => h hc.1) rep

theorem isPrefixOf_cons_iff {a : Char} {as : List Char} {c : Char} {cs : List Char} :
    ((a :: as).isPrefixOf (c :: cs)) = true ↔ a = c ∧ as.isPrefixOf cs = true := by
  simp [List.isPrefixOf]

theorem not_prefixOf_of_head_ne {p c : Char} {ps l : List Char} (h : p ≠ c) :
    ¬ (p :: ps).isPrefixOf (c :: l) := by
  simp [List.isPrefixOf, h]

theorem isPrefixOf_append_self : ∀ (p l : List Char), p.isPrefixOf (p ++ l) = true := by
  intro p
  induction p with
  | nil => intro l; simp [List.isPrefixOf]
  | cons a as ih => intro l; simp [List.isPrefixOf, ih l]

theorem replaceAll_head_ne {c : Char} {x y : Char} {rest : List Char}
    (h : c ≠ '%') (rep : List Char) :
    replaceAll (c :: rest) ['%', x, y] rep = c :: replaceAll rest ['%', x, y] rep :=
  replaceAll_cons_not_pre (not_prefixOf_of_head_ne (fun hc => h hc.symm)) rep

/-! ### The escape tables, and a per-character view of `encode_uri_component` -/

/-- The 22 encode substitutions, in the source's order of application. -/
def encPasses : List (Char × List Char) :=
  [('%', ['%', '2', '5']),
   (' ', ['%', '2', '0']),
   ('\r', ['%', '0', 'D']),
   ('\n', ['%', '0', 'A']),
   ('!', ['%', '2', '1']),
   ('"', ['%', '2', '2']),
   ('#', ['%', '2', '3']),
   ('$', ['%', '2', '4']),
   ('&', ['%', '2', '6']),
   (squote, ['%', '2', '7']),
   ('(', ['%', '2', '8']),
   (')', ['%', '2', '9']),
   ('*', ['%', '2', 'A']),
   ('+', ['%', '2', 'B']),
   (',', ['%', '2', 'C']),
   ('/', ['%', '2', 'F']),
   (':', ['%', '3', 'A']),
   (';', ['%', '3', 'B']),
   ('=', ['%', '3', 'D']),
   ('@', ['%', '4', '0']),
   ('[', ['%', '5', 'B']),
   (']', ['%', '5', 'D'])]

/-- The 23 decode substitutions, in the source's order of application. -/
def decPasses : List (List Char × List Char) :=
  [(['%', '2', '0'], [' ']),
   (['%', '0', 'A'], ['\n']),
   (['%', '0', 'D'], ['\r']),
   (['%', '2', '1'], ['!']),
   (['%', '2', '2'], ['"']),
   (['%', '2', '3'], ['#']),
   (['%', '2', '4'], ['$']),
   (['%', '2', '5'], ['%']),
   (['%', '2', '6'], ['&']),
   (['%', '2', '7'], [squote]),
   (['%', '2', '8'], ['(']),
   (['%', '2', '9'], [')']),
   (['%', '2', 'A'], ['*']),
   (['%', '2', 'B'], ['+']),
   (['%', '2', 'C'], [',']),
   (['%', '2', 'F'], ['/']),
   (['%', '3', 'A'], [':']),
   (['%', '3', 'B'], [';']),
   (['%', '3', 'D'], ['=']),
   (['%', '3', 'F'], ['?']),
   (['%', '4', '0'], ['@']),
   (['%', '5', 'B'], ['[']),
   (['%', '5', 'D'], [']'])]

theorem encode_eq_foldl (s : List Char) :
    encode_uri_component s
      = encPasses.foldl (fun acc p => replaceAll acc [p.1] p.2) s := by
  simp only [encPasses, List.foldl_cons, List.foldl_nil]
  rfl

theorem decode_eq_foldl (s : List Char) :
    decode_uri_component s
      = decPasses.foldl (fun acc p => replaceAll acc p.1 p.2) s := by
  simp only [decPasses, List.foldl_cons, List.foldl_nil]
  rfl

/-- The characters escaped by `encode_uri_component`. -/
def escapeSet : List Char :=
  ['%', ' ', '\r', '\n', '!', '"', '#', '$', '&', squote, '(', ')', '*', '+',
   ',', '/', ':', ';', '=', '@', '[', ']']

theorem escapeSet_eq : escapeSet = encPasses.map Prod.fst := rfl

/-- The action of a single-character substitution on one character. -/
def charSubst (c : Char) (rep : List Char) (a : Char) : List Char :=
  if a = c then rep else [a]

theorem replaceAll_single (c : Char) (rep : List Char) :
    ∀ s : List Char, replaceAll s [c] rep = s.flatMap (charSubst c rep) := by
  intro s
  induction s with
  | nil => rfl
  | cons a t ih =>
    by_cases h : a = c
    · subst h
      have hpre : ([a]).isPrefixOf (a :: t) = true := by simp [List.isPrefixOf]
      rw [replaceAll_cons_pos hpre (by simp) rep]
      simp [charSubst, ih]
    · rw [replaceAll_cons_not_pre (not_prefixOf_of_head_ne (fun hc => h hc.symm)) rep]
      simp only [List.flatMap_cons, charSubst, if_neg h, ih, List.cons_append,
        List.nil_append]

theorem flatMap_flatMap (l : List Char) (f g : Char → List Char) :
    (l.flatMap f).flatMap g = l.flatMap (fun a => (f a).flatMap g) := by
  induction l with
  | nil => rfl
  | cons a t ih => simp [List.flatMap_cons, ih]

theorem foldl_subst_eq_flatMap (ps : List (Char × List Char)) :
    ∀ l : List Char,
      ps.foldl (fun l p => l.flatMap (charSubst p.1 p.2)) l
        = l.flatMap
            (fun a => ps.foldl (fun l p => l.flatMap (charSubst p.1 p.2)) [a]) := by
  induction ps with
  | nil => intro l; simp
  | cons p ps ih =>
    intro l
    rw [List.foldl_cons, ih (l.flatMap (charSubst p.1 p.2)), flatMap_flatMap]
    have hfun :
        (fun a => (charSubst p.1 p.2 a).flatMap
            (fun b => ps.foldl (fun l q => l.flatMap (charSubst q.1 q.2)) [b]))
          = (fun a => List.foldl (fun l q => l.flatMap (charSubst q.1 q.2)) [a]
              (p :: ps)) := by
      funext a
      rw [List.foldl_cons, ih ([a].flatMap (charSubst p.1 p.2))]
      simp [List.flatMap_cons]
    rw [hfun]

theorem foldl_replace_eq_subst (ps : List (Char × List Char)) :
    ∀ s, ps.foldl (fun acc p => replaceAll acc [p.1] p.2) s
        = ps.foldl (fun l p => l.flatMap (charSubst p.1 p.2)) s := by
  induction ps with
  | nil => intro s; rfl
  | cons p ps ih =>
    intro s
    rw [List.foldl_cons, List.foldl_cons, replaceAll_single, ih]

/-- What `encode_uri_component` does to one character. -/
def encChar (a : Char) : List Char :=
  encPasses.foldl (fun l p => l.flatMap (charSubst p.1 p.2)) [a]

theorem encode_flatMap (s : List Char) :
    encode_uri_component s = s.flatMap encChar := by
  rw [encode_eq_foldl, foldl_replace_eq_subst, foldl_subst_eq_flatMap]
  rfl

theorem foldl_subst_singleton_of_ne (ps : List (Char × List Char)) (a : Char)
    (h : ∀ p ∈ ps, a ≠ p.1) :
    ps.foldl (fun l p => l.flatMap (charSubst p.1 p.2)) [a] = [a] := by
  induction ps with
  | nil => rfl
  | cons p ps ih =>
    rw [List.foldl_cons]
    have h1 : [a].flatMap (charSubst p.1 p.2) = [a] := by
      simp [charSubst, h p (List.mem_cons_self p ps)]
    rw [h1]
    exact ih (fun q hq => h q (List.mem_cons_of_mem p hq))

theorem encChar_of_not_mem {a : Char} (h : a ∉ escapeSet) : encChar a = [a] := by
  apply foldl_subst_singleton_of_ne
  intro p hp hac
  exact h (by rw [escapeSet_eq]; exact hac ▸ List.mem_map_of_mem Prod.fst hp)

theorem encode_id {s : List Char} (h : ∀ c ∈ s, c ∉ escapeSet) :
    encode_uri_component s = s := by
  rw [encode_flatMap]
  induction s with
  | nil => rfl
  | cons a t ih =>
    rw [List.flatMap_cons, encChar_of_not_mem (h a (List.mem_cons_self a t))]
    rw [ih (fun c hc => h c (List.mem_cons_of_mem a hc))]
    rfl

theorem isPrefixOf_subset :
    ∀ (p l : List Char), p.isPrefixOf l = true → ∀ x ∈ p, x ∈ l := by
  intro p
  induction p with
  | nil => intro l _ x hx; simp at hx
  | cons a as ih =>
    intro l h x hx
    cases l with
    | nil => simp [List.isPrefixOf] at h
    | cons b bs =>
      rw [isPrefixOf_cons_iff] at h
      rcases List.mem_cons.mp hx with hxa | hxas
      · exact hxa ▸ h.1 ▸ List.mem_cons_self b bs
      · exact List.mem_cons_of_mem b (ih bs h.2 x hxas)

theorem replaceAll_of_no_match :
    ∀ (s : List Char) {pat : List Char} (rep : List Char),
      (∃ a, a ∈ pat ∧ a ∉ s) → replaceAll s pat rep = s := by
  intro s
  induction s with
  | nil => intro pat rep _; rfl
  | cons c t ih =>
    intro pat rep h
    obtain ⟨a, hpa, hna⟩ := h
    have hnp : ¬ pat.isPrefixOf (c :: t) := by
      intro hp
      exact hna (isPrefixOf_subset pat (c :: t) hp a hpa)
    rw [replaceAll_cons_not_pre hnp rep]
    rw [ih rep ⟨a, hpa, fun hm => hna (List.mem_cons_of_mem c hm)⟩]

theorem decode_id {s : List Char} (h : '%' ∉ s) : decode_uri_component s = s := by
  rw [decode_eq_foldl]
  have key : ∀ ps : List (List Char × List Char),
      (∀ p ∈ ps, '%' ∈ p.1) →
      ps.foldl (fun acc p => replaceAll acc p.1 p.2) s = s := by
    intro ps hps
    induction ps with
    | nil => rfl
    | cons p ps ih =>
      rw [List.foldl_cons,
        replaceAll_of_no_match s p.2 ⟨'%', hps p (List.mem_cons_self p ps), h⟩]
      exact ih (fun q hq => hps q (List.mem_cons_of_mem p hq))
  exact key decPasses (by decide)

theorem replaceAll_ne_nil {s pat rep : List Char} (hs : s ≠ []) (hr : rep ≠ []) :
    replaceAll s pat rep ≠ [] := by
  cases s with
  | nil => exact absurd rfl hs
  | cons c t =>
    by_cases h : pat.isPrefixOf (c :: t) ∧ pat ≠ []
    · rw [replaceAll_cons_pos h.1 h.2 rep]
      simp [hr]
    · rw [replaceAll_cons_neg h rep]
      simp

theorem decode_ne_nil {s : List Char} (hs : s ≠ []) : decode_uri_component s ≠ [] := by
  rw [decode_eq_foldl]
  have key : ∀ (ps : List (List Char × List Char)) (t : List Char),
      (∀ p ∈ ps, p.2 ≠ []) → t ≠ [] →
      ps.foldl (fun acc p => replaceAll acc p.1 p.2) t ≠ [] := by
    intro ps
    induction ps with
    | nil => intro t _ ht; exact ht
    | cons p ps ih =>
      intro t hps ht
      rw [List.foldl_cons]
      exact ih _ (fun q hq => hps q (List.mem_cons_of_mem p hq))
        (replaceAll_ne_nil ht (hps p (List.mem_cons_self p ps)))
  exact key decPasses s (by decide) hs

/-! ### Block decomposition of strings made of escape codes

A string that is a concatenation of blocks — single characters from
`symSet` or three-character codes `['%', x, y]` with `x, y` hex — is
transformed by each decode pass block by block: a pass replaces exactly
the blocks equal to its pattern and leaves everything else unchanged. -/

/-- Characters that occur in position two or three of a code of the decode
table. -/
def hexSet : List Char :=
  ['0', '1', '2', '3', '4', '5', '6', '7', '8', '9', 'A', 'B', 'C', 'D', 'F']

/-- Characters produced by a decode substitution, together with `%`. -/
def symSet : List Char :=
  [' ', '\n', '\r', '!', '"', '#', '$', '%', '&', squote, '(', ')', '*', '+',
   ',', '/', ':', ';', '=', '?', '@', '[', ']']

def isCode (b : List Char) : Bool :=
  match b with
  | [p, x, y] => p == '%' && decide (x ∈ hexSet) && decide (y ∈ hexSet)
  | _ => false

def isSymOne (b : List Char) : Bool :=
  match b with
  | [c] => decide (c ∈ symSet)
  | _ => false

def isBlock (b : List Char) : Bool := isSymOne b || isCode b

theorem isCode_spec {b : List Char} (h : isCode b = true) :
    ∃ x y, b = ['%', x, y] ∧ x ∈ hexSet ∧ y ∈ hexSet := by
  cases b with
  | nil => simp [isCode] at h
  | cons c0 t0 =>
    cases t0 with
    | nil => simp [isCode] at h
    | cons c1 t1 =>
      cases t1 with
      | nil => simp [isCode] at h
      | cons c2 t2 =>
        cases t2 with
        | nil =>
          simp only [isCode, Bool.and_eq_true, beq_iff_eq, decide_eq_true_eq] at h
          exact ⟨c1, c2, by rw [h.1.1], h.1.2, h.2⟩
        | cons c3 t3 => simp [isCode] at h

theorem isSymOne_spec {b : List Char} (h : isSymOne b = true) :
    ∃ c, b = [c] ∧ c ∈ symSet := by
  cases b with
  | nil => simp [isSymOne] at h
  | cons c0 t0 =>
    cases t0 with
    | nil =>
      simp only [isSymOne, decide_eq_true_eq] at h
      exact ⟨c0, rfl, h⟩
    | cons c1 t1 => simp [isSymOne] at h

theorem hex_ne_percent {a : Char} (h : a ∈ hexSet) : a ≠ '%' := by
  intro hEq
  exact absurd (hEq ▸ h) (by decide)

theorem hex_not_sym : ∀ a ∈ hexSet, a ∉ symSet := by decide

/-- The head of the concatenation of a list of blocks is never a hex
character, so a code whose tail starts at that head cannot match there. -/
theorem not_prefixOf_flatten {x y : Char} (hx : x ∈ hexSet) :
    ∀ (bs : List (List Char)), (∀ b ∈ bs, isBlock b = true) →
      ¬ ([x, y].isPrefixOf bs.flatten) = true := by
  intro bs
  induction bs with
  | nil => intro _ h; simp [List.isPrefixOf] at h
  | cons b bs ih =>
    intro hbs h
    have hb := hbs b (List.mem_cons_self b bs)
    rcases Bool.or_eq_true_iff.mp hb with hone | hcode
    · obtain ⟨c, rfl, hc⟩ := isSymOne_spec hone
      rw [List.flatten_cons, List.cons_append] at h
      rw [isPrefixOf_cons_iff] at h
      exact hex_not_sym x hx (h.1 ▸ hc)
    · obtain ⟨x2, y2, rfl, hx2, _⟩ := isCode_spec hcode
      rw [List.flatten_cons, List.cons_append] at h
      rw [isPrefixOf_cons_iff] at h
      exact hex_ne_percent hx h.1

theorem replaceAll_blocks {pat : List Char} (hpat : isCode pat = true)
    (rep : List Char) :
    ∀ bs : List (List Char), (∀ b ∈ bs, isBlock b = true) →
      replaceAll bs.flatten pat rep
        = (bs.map (fun b => if b = pat then rep else b)).flatten := by
  obtain ⟨x, y, hp, hx, hy⟩ := isCode_spec hpat
  subst hp
  intro bs
  induction bs with
  | nil => intro _; rfl
  | cons b bs ih =>
    intro hbs
    have hb := hbs b (List.mem_cons_self b bs)
    have hbs' : ∀ b' ∈ bs, isBlock b' = true :=
      fun b' h' => hbs b' (List.mem_cons_of_mem b h')
    rw [List.flatten_cons, List.map_cons, List.flatten_cons]
    rcases Bool.or_eq_true_iff.mp hb with hone | hcode
    · obtain ⟨c, rfl, hc⟩ := isSymOne_spec hone
      have hne : ([c] : List Char) ≠ ['%', x, y] := by simp
      rw [if_neg hne]
      simp only [List.cons_append, List.nil_append]
      have hnp : ¬ (['%', x, y].isPrefixOf (c :: bs.flatten)) = true := by
        by_cases hcp : c = '%'
        · subst hcp
          intro h
          rw [isPrefixOf_cons_iff] at h
          exact not_prefixOf_flatten hx bs hbs' h.2
        · exact not_prefixOf_of_head_ne (fun h => hcp h.symm)
      rw [replaceAll_cons_not_pre hnp rep, ih hbs']
    · obtain ⟨x2, y2, rfl, hx2, hy2⟩ := isCode_spec hcode
      by_cases heq : (['%', x2, y2] : List Char) = ['%', x, y]
      · rw [if_pos heq, heq]
        rw [show (['%', x, y] ++ bs.flatten : List Char)
              = '%' :: x :: y :: bs.flatten from rfl]
        have hpre : (['%', x, y] : List Char).isPrefixOf ('%' :: x :: y :: bs.flatten)
            = true := isPrefixOf_append_self ['%', x, y] bs.flatten
        rw [replaceAll_cons_pos hpre (by simp) rep]
        rw [show (('%' :: x :: y :: bs.flatten).drop (['%', x, y] : List Char).length)
              = bs.flatten from rfl]
        rw [ih hbs']
      · rw [if_neg heq]
        simp only [List.cons_append, List.nil_append]
        have h1 : ¬ (['%', x, y].isPrefixOf ('%' :: x2 :: y2 :: bs.flatten)) = true := by
          intro h
          rw [isPrefixOf_cons_iff, isPrefixOf_cons_iff, isPrefixOf_cons_iff] at h
          exact heq (by rw [h.2.1, h.2.2.1])
        rw [replaceAll_cons_not_pre h1 rep]
        rw [replaceAll_head_ne (hex_ne_percent hx2) rep]
        rw [replaceAll_head_ne (hex_ne_percent hy2) rep]
        rw [ih hbs']

theorem foldl_replace_blocks :
    ∀ (ps : List (List Char × List Char)),
      (∀ p ∈ ps, isCode p.1 = true ∧ isSymOne p.2 = true) →
      ∀ bs : List (List Char), (∀ b ∈ bs, isBlock b = true) →
      ps.foldl (fun acc p => replaceAll acc p.1 p.2) bs.flatten
        = (bs.map
            (fun b => ps.foldl (fun b p => if b = p.1 then p.2 else b) b)).flatten := by
  intro ps
  induction ps with
  | nil => intro _ bs _; simp
  | cons p ps ih =>
    intro hps bs hbs
    rw [List.foldl_cons]
    have hp := hps p (List.mem_cons_self p ps)
    rw [replaceAll_blocks hp.1 p.2 bs hbs]
    rw [ih (fun q hq => hps q (List.mem_cons_of_mem p hq))
        (bs.map (fun b => if b = p.1 then p.2 else b)) ?_]
    · rw [List.map_map]
      rfl
    · intro b' hb'
      obtain ⟨b0, hb0, rfl⟩ := List.mem_map.mp hb'
      by_cases hbp : b0 = p.1
      · rw [if_pos hbp]
        exact Bool.or_eq_true_iff.mpr (Or.inl hp.2)
      · rw [if_neg hbp]
        exact hbs b0 hb0

/-- What the decode chain does to one block. -/
def decBlock (b : List Char) : List Char :=
  decPasses.foldl (fun b p => if b = p.1 then p.2 else b) b

set_option maxHeartbeats 1600000 in
theorem decPasses_wf : ∀ p ∈ decPasses, isCode p.1 = true ∧ isSymOne p.2 = true := by
  decide

theorem decode_blocks (bs : List (List Char)) (hbs : ∀ b ∈ bs, isBlock b = true) :
    decode_uri_component bs.flatten = (bs.map decBlock).flatten := by
  rw [decode_eq_foldl]
  exact foldl_replace_blocks decPasses decPasses_wf bs hbs

set_option maxHeartbeats 1600000 in
theorem encChar_isCode : ∀ a ∈ escapeSet, isCode (encChar a) = true := by decide

set_option maxHeartbeats 1600000 in
theorem decBlock_encChar : ∀ a ∈ escapeSet, decBlock (encChar a) = [a] := by decide

theorem isBlock_of_isCode {b : List Char} (h : isCode b = true) :
    isBlock b = true :=
  Bool.or_eq_true_iff.mpr (Or.inr h)

theorem map_decBlock_encChar : ∀ (s : List Char), (∀ c ∈ s, c ∈ escapeSet) →
    (s.map encChar).map decBlock = s.map (fun a => [a]) := by
  intro s
  induction s with
  | nil => intro _; rfl
  | cons a t ih =>
    intro h
    rw [List.map_cons, List.map_cons, List.map_cons]
    rw [decBlock_encChar a (h a (List.mem_cons_self a t))]
    rw [ih (fun c hc => h c (List.mem_cons_of_mem a hc))]

/-- Round trip for strings made only of characters of the escape table. -/
theorem decode_encode_escape {s : List Char} (h : ∀ c ∈ s, c ∈ escapeSet) :
    decode_uri_component (encode_uri_component s) = s := by
  have hbs : ∀ b ∈ s.map encChar, isBlock b = true := by
    intro b hb
    obtain ⟨a, ha, rfl⟩ := List.mem_map.mp hb
    exact isBlock_of_isCode (encChar_isCode a (h a ha))
  rw [encode_flatMap, List.flatMap_def]
  rw [decode_blocks (s.map encChar) hbs]
  rw [map_decBlock_encChar s h]
  rw [← List.flatMap_def]
  exact List.flatMap_singleton' s

/-! ### Matches never cross the boundary of a code-shaped block

Every decode pattern is `['%', x, y]` with `x, y` hex, so no match can start
just before a segment whose first character is not hex, and no match can
start inside a code-shaped segment `'%' :: x :: y` with `x, y ≠ '%'`. -/

theorem replaceAll_append_of_head (x y : Char) (hx : x ∈ hexSet) (hy : y ∈ hexSet)
    (rep : List Char) :
    ∀ (u v : List Char), (∀ h0, v.head? = some h0 → h0 ∉ hexSet) →
      replaceAll (u ++ v) ['%', x, y] rep
        = replaceAll u ['%', x, y] rep ++ replaceAll v ['%', x, y] rep := by
  have H : ∀ (n : Nat) (u v : List Char), u.length ≤ n →
      (∀ h0, v.head? = some h0 → h0 ∉ hexSet) →
      replaceAll (u ++ v) ['%', x, y] rep
        = replaceAll u ['%', x, y] rep ++ replaceAll v ['%', x, y] rep := by
    intro n
    induction n with
    | zero =>
      intro u v hu _
      have : u = [] := List.eq_nil_of_length_eq_zero (Nat.le_zero.mp hu)
      subst this
      rw [List.nil_append, replaceAll_nil, List.nil_append]
    | succ n ih =>
      intro u v hu hv
      cases u with
      | nil => rw [List.nil_append, replaceAll_nil, List.nil_append]
      | cons c u' =>
        by_cases hpre : (['%', x, y] : List Char).isPrefixOf (c :: u') = true
        · rw [isPrefixOf_cons_iff] at hpre
          obtain ⟨hc, hpre⟩ := hpre
          cases u' with
          | nil => simp [List.isPrefixOf] at hpre
          | cons d u2 =>
            rw [isPrefixOf_cons_iff] at hpre
            obtain ⟨hd, hpre⟩ := hpre
            cases u2 with
            | nil => simp [List.isPrefixOf] at hpre
            | cons e u3 =>
              rw [isPrefixOf_cons_iff] at hpre
              obtain ⟨he, _⟩ := hpre
              subst hc; subst hd; subst he
              have hpre1 : (['%', x, y] : List Char).isPrefixOf
                  ('%' :: x :: y :: (u3 ++ v)) = true :=
                isPrefixOf_append_self ['%', x, y] (u3 ++ v)
              have hpre2 : (['%', x, y] : List Char).isPrefixOf
                  ('%' :: x :: y :: u3) = true :=
                isPrefixOf_append_self ['%', x, y] u3
              rw [List.cons_append, List.cons_append, List.cons_append]
              rw [replaceAll_cons_pos hpre1 (by simp) rep]
              rw [replaceAll_cons_pos hpre2 (by simp) rep]
              rw [show (('%' :: x :: y :: (u3 ++ v)).drop
                    (['%', x, y] : List Char).length) = u3 ++ v from rfl]
              rw [show (('%' :: x :: y :: u3).drop
                    (['%', x, y] : List Char).length) = u3 from rfl]
              have hu3 : u3.length ≤ n := by
                simp only [List.length_cons] at hu; omega
              rw [ih u3 v hu3 hv, List.append_assoc]
        · have hpre2 : ¬ (['%', x, y] : List Char).isPrefixOf
              (c :: (u' ++ v)) = true := by
            intro hm
            rw [isPrefixOf_cons_iff] at hm
            obtain ⟨hc, hm⟩ := hm
            cases u' with
            | nil =>
              rw [List.nil_append] at hm
              cases v with
              | nil => simp [List.isPrefixOf] at hm
              | cons h0 v' =>
                rw [isPrefixOf_cons_iff] at hm
                exact hv h0 rfl (hm.1 ▸ hx)
            | cons d u2 =>
              rw [List.cons_append, isPrefixOf_cons_iff] at hm
              obtain ⟨hd, hm⟩ := hm
              cases u2 with
              | nil =>
                rw [List.nil_append] at hm
                cases v with
                | nil => simp [List.isPrefixOf] at hm
                | cons h0 v' =>
                  rw [isPrefixOf_cons_iff] at hm
                  exact hv h0 rfl (hm.1 ▸ hy)
              | cons e u3 =>
                rw [List.cons_append, isPrefixOf_cons_iff] at hm
                apply hpre
                rw [isPrefixOf_cons_iff]
                refine ⟨hc, ?_⟩
                rw [isPrefixOf_cons_iff]
                refine ⟨hd, ?_⟩
                rw [isPrefixOf_cons_iff]
                exact ⟨hm.1, by simp [List.isPrefixOf]⟩
          rw [List.cons_append]
          rw [replaceAll_cons_not_pre hpre2 rep]
          rw [replaceAll_cons_not_pre hpre rep]
          have hu' : u'.length ≤ n := by
            simp only [List.length_cons] at hu; omega
          rw [ih u' v hu' hv, List.cons_append]
  exact fun u v hv => H u.length u v (Nat.le_refl _) hv

theorem replaceAll_code_head {x y x2 y2 : Char} (hne : ¬(x = x2 ∧ y = y2))
    (hx2 : x2 ≠ '%') (hy2 : y2 ≠ '%') (t rep : List Char) :
    replaceAll ('%' :: x2 :: y2 :: t) ['%', x, y] rep
      = '%' :: x2 :: y2 :: replaceAll t ['%', x, y] rep := by
  have h1 : ¬ (['%', x, y] : List Char).isPrefixOf ('%' :: x2 :: y2 :: t) = true := by
    intro hm
    rw [isPrefixOf_cons_iff, isPrefixOf_cons_iff, isPrefixOf_cons_iff] at hm
    exact hne ⟨hm.2.1, hm.2.2.1⟩
  rw [replaceAll_cons_not_pre h1 rep]
  rw [replaceAll_head_ne hx2 rep, replaceAll_head_ne hy2 rep]

/-- A code-shaped segment `'%' :: x2 :: y2` that is the pattern of no pass in
`ps` survives all the passes, and text on either side is processed
independently. -/
theorem foldl_block_boundary {x2 y2 : Char} (hx2 : x2 ≠ '%') (hy2 : y2 ≠ '%') :
    ∀ (ps : List (List Char × List Char)),
      (∀ p ∈ ps, isCode p.1 = true ∧ p.1 ≠ ['%', x2, y2]) →
      ∀ s t : List Char,
      ps.foldl (fun acc p => replaceAll acc p.1 p.2) (s ++ '%' :: x2 :: y2 :: t)
        = ps.foldl (fun acc p => replaceAll acc p.1 p.2) s
          ++ '%' :: x2 :: y2 :: ps.foldl (fun acc p => replaceAll acc p.1 p.2) t := by
  intro ps
  induction ps with
  | nil => intro _ s t; rfl
  | cons p ps ih =>
    intro hps s t
    obtain ⟨hcode, hnp⟩ := hps p (List.mem_cons_self p ps)
    obtain ⟨x, y, hp1, hx, hy⟩ := isCode_spec hcode
    rw [List.foldl_cons, List.foldl_cons, List.foldl_cons, hp1]
    rw [replaceAll_append_of_head x y hx hy p.2 s ('%' :: x2 :: y2 :: t)
      (fun h0 hh0 => by
        rw [List.head?_cons, Option.some_inj] at hh0
        rw [← hh0]
        decide)]
    rw [replaceAll_code_head
      (fun hc => hnp (by rw [hp1, hc.1, hc.2]))
      hx2 hy2 t p.2]
    exact ih (fun q hq => hps q (List.mem_cons_of_mem p hq))
      (replaceAll s ['%', x, y] p.2) (replaceAll t ['%', x, y] p.2)

/-- A single character that is neither `%` nor hex separates the text into
independently processed parts, for every pass of a decode-style table. -/
theorem foldl_char_boundary {q : Char} (hq : q ≠ '%') (hqh : q ∉ hexSet) :
    ∀ (ps : List (List Char × List Char)),
      (∀ p ∈ ps, isCode p.1 = true) →
      ∀ s t : List Char,
      ps.foldl (fun acc p => replaceAll acc p.1 p.2) (s ++ q :: t)
        = ps.foldl (fun acc p => replaceAll acc p.1 p.2) s
          ++ q :: ps.foldl (fun acc p => replaceAll acc p.1 p.2) t := by
  intro ps
  induction ps with
  | nil => intro _ s t; rfl
  | cons p ps ih =>
    intro hps s t
    obtain ⟨x, y, hp1, hx, hy⟩ := isCode_spec (hps p (List.mem_cons_self p ps))
    rw [List.foldl_cons, List.foldl_cons, List.foldl_cons, hp1]
    rw [replaceAll_append_of_head x y hx hy p.2 s (q :: t)
      (fun h0 hh0 => by
        rw [List.head?_cons, Option.some_inj] at hh0
        rw [← hh0]
        exact hqh)]
    rw [replaceAll_head_ne hq p.2]
    exact ih (fun r hr => hps r (List.mem_cons_of_mem p hr))
      (replaceAll s ['%', x, y] p.2) (replaceAll t ['%', x, y] p.2)

/-- The decode passes before `%3F`. -/
def decPre : List (List Char × List Char) :=
  [(['%', '2', '0'], [' ']),
   (['%', '0', 'A'], ['\n']),
   (['%', '0', 'D'], ['\r']),
   (['%', '2', '1'], ['!']),
   (['%', '2', '2'], ['"']),
   (['%', '2', '3'], ['#']),
   (['%', '2', '4'], ['$']),
   (['%', '2', '5'], ['%']),
   (['%', '2', '6'], ['&']),
   (['%', '2', '7'], [squote]),
   (['%', '2', '8'], ['(']),
   (['%', '2', '9'], [')']),
   (['%', '2', 'A'], ['*']),
   (['%', '2', 'B'], ['+']),
   (['%', '2', 'C'], [',']),
   (['%', '2', 'F'], ['/']),
   (['%', '3', 'A'], [':']),
   (['%', '3', 'B'], [';']),
   (['%', '3', 'D'], ['='])]

/-- The decode passes after `%3F`. -/
def decPost : List (List Char × List Char) :=
  [(['%', '4', '0'], ['@']),
   (['%', '5', 'B'], ['[']),
   (['%', '5', 'D'], [']'])]

theorem decPasses_decomp :
    decPasses = decPre ++ (['%', '3', 'F'], ['?']) :: decPost := rfl

/-- Every occurrence of `%3F` decodes to `?`, with the surrounding text
processed independently. -/
theorem decode_q_split (s t : List Char) :
    decode_uri_component (s ++ '%' :: '3' :: 'F' :: t)
      = decode_uri_component s ++ '?' :: decode_uri_component t := by
  rw [decode_eq_foldl, decode_eq_foldl, decode_eq_foldl, decPasses_decomp]
  rw [List.foldl_append, List.foldl_append, List.foldl_append]
  rw [foldl_block_boundary (by decide) (by decide) decPre (by decide) s t]
  generalize List.foldl (fun acc p => replaceAll acc p.1 p.2) s decPre = S
  generalize List.foldl (fun acc p => replaceAll acc p.1 p.2) t decPre = T
  rw [List.foldl_cons, List.foldl_cons, List.foldl_cons]
  rw [replaceAll_append_of_head '3' 'F' (by decide) (by decide) ['?']
    S ('%' :: '3' :: 'F' :: T)
    (fun h0 hh0 => by
      rw [List.head?_cons, Option.some_inj] at hh0
      rw [← hh0]
      decide)]
  have hq : (['%', '3', 'F'] : List Char).isPrefixOf ('%' :: '3' :: 'F' :: T)
      = true := by
    simp [List.isPrefixOf]
  rw [replaceAll_cons_pos hq (by simp) ['?']]
  rw [show (('%' :: '3' :: 'F' :: T).drop (['%', '3', 'F'] : List Char).length)
      = T from rfl]
  rw [show (['?'] ++ replaceAll T ['%', '3', 'F'] ['?'])
      = '?' :: replaceAll T ['%', '3', 'F'] ['?'] from rfl]
  rw [foldl_char_boundary (by decide) (by decide) decPost (by decide)]

/-- Unknown percent sequences survive decoding, with the surrounding text
processed independently. -/
theorem decode_unknown_split (s t : List Char) (x y : Char)
    (hx : x ≠ '%') (hy : y ≠ '%')
    (hnot : (['%', x, y] : List Char) ∉ decPasses.map Prod.fst) :
    decode_uri_component (s ++ '%' :: x :: y :: t)
      = decode_uri_component s ++ '%' :: x :: y :: decode_uri_component t := by
  rw [decode_eq_foldl, decode_eq_foldl, decode_eq_foldl]
  exact foldl_block_boundary hx hy decPasses
    (fun p hp => ⟨(decPasses_wf p hp).1,
      fun he => hnot (he ▸ List.mem_map_of_mem Prod.fst hp)⟩) s t

/-- `?` is never encoded: it passes through `encode_uri_component`
literally, with the surrounding text processed independently. -/
theorem encode_q_split (s t : List Char) :
    encode_uri_component (s ++ '?' :: t)
      = encode_uri_component s ++ '?' :: encode_uri_component t := by
  rw [encode_flatMap, encode_flatMap, encode_flatMap]
  rw [List.flatMap_append, List.flatMap_cons]
  rw [show encChar '?' = ['?'] from by decide]
  rfl

/-! ### Splitting, joining, trimming and inserting -/

theorem splitOnChar_ne_nil (sep : Char) : ∀ s : List Char, splitOnChar sep s ≠ [] := by
  intro s
  induction s with
  | nil => simp [splitOnChar]
  | cons c rest ih =>
    simp only [splitOnChar]
    by_cases h : c = sep
    · simp [h]
    · simp only [if_neg h]
      cases hrec : splitOnChar sep rest with
      | nil => simp
      | cons t ts => simp

theorem splitOnChar_not_mem {sep : Char} : ∀ {s : List Char}, sep ∉ s →
    splitOnChar sep s = [s] := by
  intro s
  induction s with
  | nil => intro _; rfl
  | cons c rest ih =>
    intro h
    have hc : ¬(c = sep) := fun he => h (he ▸ List.mem_cons_self c rest)
    have hr : sep ∉ rest := fun hm => h (List.mem_cons_of_mem c hm)
    simp only [splitOnChar, if_neg hc, ih hr]

theorem splitOnChar_append_sep (sep : Char) : ∀ (k r : List Char), sep ∉ k →
    splitOnChar sep (k ++ sep :: r) = k :: splitOnChar sep r := by
  intro k
  induction k with
  | nil =>
    intro r _
    simp [splitOnChar]
  | cons c k2 ih =>
    intro r h
    have hc : ¬(c = sep) := fun he => h (he ▸ List.mem_cons_self c k2)
    have hk : sep ∉ k2 := fun hm => h (List.mem_cons_of_mem c hm)
    rw [List.cons_append]
    simp only [splitOnChar, if_neg hc, ih r hk]

theorem joinSep_pair (sep : Char) (t : List Char) (t2 : List Char)
    (ts : List (List Char)) :
    joinSep sep (t :: t2 :: ts) = t ++ sep :: joinSep sep (t2 :: ts) := rfl

theorem splitOnChar_joinSep (sep : Char) :
    ∀ ts : List (List Char), ts ≠ [] → (∀ t ∈ ts, sep ∉ t) →
      splitOnChar sep (joinSep sep ts) = ts := by
  intro ts
  induction ts with
  | nil => intro h _; exact absurd rfl h
  | cons t ts ih =>
    intro _ hmem
    cases ts with
    | nil => exact splitOnChar_not_mem (hmem t (List.mem_cons_self t []))
    | cons t2 ts2 =>
      rw [joinSep_pair,
        splitOnChar_append_sep sep t _ (hmem t (List.mem_cons_self t (t2 :: ts2))),
        ih (by simp) (fun u hu => hmem u (List.mem_cons_of_mem t hu))]

theorem mem_joinSep_of_mem {sep c : Char} :
    ∀ {ts : List (List Char)} {t : List Char}, t ∈ ts → c ∈ t →
      c ∈ joinSep sep ts := by
  intro ts
  induction ts with
  | nil => intro t ht _; simp at ht
  | cons t0 ts ih =>
    intro t ht hc
    cases ts with
    | nil =>
      rcases List.mem_cons.mp ht with rfl | h
      · exact hc
      · simp at h
    | cons t2 ts2 =>
      rw [joinSep_pair]
      rcases List.mem_cons.mp ht with rfl | h
      · exact List.mem_append.mpr (Or.inl hc)
      · exact List.mem_append.mpr
          (Or.inr (List.mem_cons_of_mem sep (ih h hc)))

theorem trimBoth_eq_nil_iff (s : List Char) :
    trimBoth s = [] ↔ ∀ c ∈ s, c.isWhitespace = true := by
  unfold trimBoth
  rw [List.reverse_eq_nil_iff, List.dropWhile_eq_nil_iff]
  constructor
  · intro h c hc
    rw [← @List.takeWhile_append_dropWhile _ Char.isWhitespace s] at hc
    rcases List.mem_append.mp hc with h1 | h2
    · exact List.mem_takeWhile_imp h1
    · exact h c (List.mem_reverse.mpr h2)
  · intro h c hc
    exact h c ((List.dropWhile_sublist Char.isWhitespace).subset
      (List.mem_reverse.mp hc))

theorem trimBoth_ne_nil {s : List Char} {c : Char} (hc : c ∈ s)
    (hw : c.isWhitespace = false) : trimBoth s ≠ [] := by
  intro h
  have hcw := (trimBoth_eq_nil_iff s).mp h c hc
  rw [hw] at hcw
  exact Bool.false_ne_true hcw

theorem insertKV_not_mem {m : List (List Char × List Char)} {k : List Char}
    (v : List Char) (h : k ∉ m.map Prod.fst) : insertKV m k v = m ++ [(k, v)] := by
  unfold insertKV
  rw [if_neg ?_]
  intro ha
  obtain ⟨p, hp, hpk⟩ := List.any_eq_true.mp ha
  rw [beq_iff_eq] at hpk
  exact h (hpk ▸ List.mem_map_of_mem Prod.fst hp)

theorem insertKV_keys_ne {m : List (List Char × List Char)}
    {k v : List Char} (hm : ∀ p ∈ m, p.1 ≠ []) (hk : k ≠ []) :
    ∀ p ∈ insertKV m k v, p.1 ≠ [] := by
  intro p hp
  unfold insertKV at hp
  by_cases h : m.any (fun p => p.1 == k) = true
  · rw [if_pos h] at hp
    obtain ⟨q, hq, hqe⟩ := List.mem_map.mp hp
    by_cases hqk : q.1 == k
    · rw [if_pos hqk] at hqe
      rw [← hqe]
      exact hm q hq
    · rw [if_neg hqk] at hqe
      exact hqe ▸ hm q hq
  · rw [if_neg h] at hp
    rcases List.mem_append.mp hp with h1 | h2
    · exact hm p h1
    · rw [List.mem_singleton.mp h2]
      exact hk

/-! ### The parser's token loop -/

/-- The loop body of `parse_url_search_params`, folded over the `&`-tokens. -/
def parseFold (acc : List (List Char × List Char)) (ts : List (List Char)) :
    List (List Char × List Char) :=
  ts.foldl
    (fun params_map param =>
      let kv := splitOnChar '=' param
      let key := kv.headD []
      let value := (kv.drop 1).headD []
      if key ≠ [] then
        insertKV params_map (decode_uri_component key) (decode_uri_component value)
      else
        params_map)
    acc

theorem parse_eq_parseFold (params : List Char) :
    parse_url_search_params params
      = if trimBoth params = [] then []
        else parseFold [] (splitOnChar '&' params) := rfl

/-- The decoded key a token contributes. -/
def tokenKey (t : List Char) : List Char :=
  decode_uri_component ((splitOnChar '=' t).headD [])

/-- The decoded value a token contributes. -/
def tokenVal (t : List Char) : List Char :=
  decode_uri_component (((splitOnChar '=' t).drop 1).headD [])

/-- The key/value pair a token contributes (after decoding). -/
def tokenKV (t : List Char) : List Char × List Char := (tokenKey t, tokenVal t)

theorem tokenKV_fst (t : List Char) : (tokenKV t).1 = tokenKey t := by
  unfold tokenKV
  with_reducible rfl

theorem tokenKey_of_pair (k v : List Char) (hk : '=' ∉ k) (hv : '=' ∉ v) :
    tokenKey (k ++ '=' :: v) = decode_uri_component k := by
  unfold tokenKey
  rw [splitOnChar_append_sep '=' k v hk, splitOnChar_not_mem hv]
  simp only [List.headD_cons]

theorem tokenVal_of_pair (k v : List Char) (hk : '=' ∉ k) (hv : '=' ∉ v) :
    tokenVal (k ++ '=' :: v) = decode_uri_component v := by
  unfold tokenVal
  rw [splitOnChar_append_sep '=' k v hk, splitOnChar_not_mem hv]
  simp only [List.drop_succ_cons, List.drop_zero, List.headD_cons]

theorem tokenKV_of_pair (k v : List Char) (hk : '=' ∉ k) (hv : '=' ∉ v) :
    tokenKV (k ++ '=' :: v) = (decode_uri_component k, decode_uri_component v) := by
  unfold tokenKV
  rw [tokenKey_of_pair k v hk hv, tokenVal_of_pair k v hk hv]

theorem parseFold_cons (acc : List (List Char × List Char)) (t : List Char)
    (ts : List (List Char)) (hne : (splitOnChar '=' t).headD [] ≠ []) :
    parseFold acc (t :: ts)
      = parseFold (insertKV acc (tokenKey t) (tokenVal t)) ts := by
  unfold parseFold
  rw [List.foldl_cons]
  congr 1
  unfold tokenKey tokenVal
  show (if (splitOnChar '=' t).headD [] ≠ [] then
      insertKV acc (decode_uri_component ((splitOnChar '=' t).headD []))
        (decode_uri_component (((splitOnChar '=' t).drop 1).headD []))
    else acc)
    = insertKV acc (decode_uri_component ((splitOnChar '=' t).headD []))
        (decode_uri_component (((splitOnChar '=' t).drop 1).headD []))
  rw [if_pos hne]

theorem parseFold_cons_neg (acc : List (List Char × List Char)) (t : List Char)
    (ts : List (List Char)) (hne : ¬ (splitOnChar '=' t).headD [] ≠ []) :
    parseFold acc (t :: ts) = parseFold acc ts := by
  unfold parseFold
  rw [List.foldl_cons]
  congr 1
  show (if (splitOnChar '=' t).headD [] ≠ [] then
      insertKV acc (decode_uri_component ((splitOnChar '=' t).headD []))
        (decode_uri_component (((splitOnChar '=' t).drop 1).headD []))
    else acc)
    = acc
  rw [if_neg hne]

theorem parseFold_tokens :
    ∀ (ts : List (List Char)) (acc : List (List Char × List Char)),
      (∀ t ∈ ts, (splitOnChar '=' t).headD [] ≠ []) →
      ((acc ++ ts.map tokenKV).map Prod.fst).Nodup →
      parseFold acc ts = acc ++ ts.map tokenKV := by
  intro ts
  induction ts with
  | nil => intro acc _ _; simp [parseFold]
  | cons t ts ih =>
    intro acc hk hnd
    rw [List.map_cons, List.map_append, List.map_cons, tokenKV_fst t] at hnd
    have hknm : tokenKey t ∉ acc.map Prod.fst := by
      intro hmem
      exact (List.nodup_append.mp hnd).2.2 hmem
        (List.mem_cons_self (tokenKey t) ((ts.map tokenKV).map Prod.fst))
    rw [parseFold_cons acc t ts (hk t (List.mem_cons_self t ts))]
    rw [insertKV_not_mem (tokenVal t) hknm]
    rw [show (tokenKey t, tokenVal t) = tokenKV t from rfl]
    rw [ih (acc ++ [tokenKV t])
      (fun u hu => hk u (List.mem_cons_of_mem t hu)) ?_]
    · rw [List.append_assoc, List.singleton_append, List.map_cons]
    · rw [List.append_assoc, List.singleton_append]
      rw [List.map_append, List.map_cons, tokenKV_fst t]
      exact hnd

theorem parseFold_keys_ne :
    ∀ (ts : List (List Char)) (acc : List (List Char × List Char)),
      (∀ p ∈ acc, p.1 ≠ []) → ∀ p ∈ parseFold acc ts, p.1 ≠ [] := by
  intro ts
  induction ts with
  | nil => intro acc hacc; exact hacc
  | cons t ts ih =>
    intro acc hacc
    by_cases hkey : (splitOnChar '=' t).headD [] ≠ []
    · rw [parseFold_cons acc t ts hkey]
      refine ih _ (insertKV_keys_ne hacc ?_)
      unfold tokenKey
      exact decode_ne_nil hkey
    · rw [parseFold_cons_neg acc t ts hkey]
      exact ih _ hacc

/-- No entry of the parser's result has an empty key. -/
theorem parse_keys_ne (params : List Char) :
    ∀ p ∈ parse_url_search_params params, p.1 ≠ [] := by
  rw [parse_eq_parseFold]
  by_cases h : trimBoth params = []
  · rw [if_pos h]
    intro p hp
    simp at hp
  · rw [if_neg h]
    exact parseFold_keys_ne (splitOnChar '&' params) []
      (by intro p hp; simp at hp)

/-! ### The builder's sort -/

theorem pairLe_trans (a b c : List Char) (h1 : pairLe a b = true)
    (h2 : pairLe b c = true) : pairLe a c = true := by
  unfold pairLe at h1 h2 ⊢
  rw [decide_eq_true_eq] at h1 h2 ⊢
  exact le_trans h1 h2

theorem pairLe_total (a b : List Char) : pairLe a b || pairLe b a := by
  unfold pairLe
  rcases le_total (toLowerChars a) (toLowerChars b) with h | h
  · simp [h]
  · simp [h]

theorem pairLe_antisymm {a b : List Char} (h1 : pairLe a b = true)
    (h2 : pairLe b a = true) : toLowerChars a = toLowerChars b := by
  unfold pairLe at h1 h2
  rw [decide_eq_true_eq] at h1 h2
  exact le_antisymm h1 h2

/-- Two sorted lists that are permutations of each other agree, provided the
order is antisymmetric on their members. -/
theorem sorted_perm_unique {α : Type} (le : α → α → Bool) :
    ∀ (l1 l2 : List α), l1.Perm l2 →
      l1.Pairwise (fun a b => le a b = true) →
      l2.Pairwise (fun a b => le a b = true) →
      (∀ a ∈ l1, ∀ b ∈ l1, le a b = true → le b a = true → a = b) →
      l1 = l2 := by
  intro l1
  induction l1 with
  | nil =>
    intro l2 hp _ _ _
    exact (List.Perm.eq_nil hp.symm).symm
  | cons a t1 ih =>
    intro l2 hp hs1 hs2 hanti
    cases l2 with
    | nil => exact absurd (List.Perm.eq_nil hp) (by simp)
    | cons b t2 =>
      have hab : a = b := by
        by_cases h : a = b
        · exact h
        · have ha2 : a ∈ b :: t2 := hp.mem_iff.mp (List.mem_cons_self a t1)
          have hb1 : b ∈ a :: t1 := hp.mem_iff.mpr (List.mem_cons_self b t2)
          have hat2 : a ∈ t2 := by
            rcases List.mem_cons.mp ha2 with h2 | h2
            · exact absurd h2 h
            · exact h2
          have hbt1 : b ∈ t1 := by
            rcases List.mem_cons.mp hb1 with h2 | h2
            · exact absurd h2.symm h
            · exact h2
          have hba : le b a = true := (List.pairwise_cons.mp hs2).1 a hat2
          have hab2 : le a b = true := (List.pairwise_cons.mp hs1).1 b hbt1
          exact hanti a (List.mem_cons_self a t1) b hb1 hab2 hba
      subst hab
      have hpt : t1.Perm t2 := hp.cons_inv
      rw [ih t2 hpt (List.pairwise_cons.mp hs1).2 (List.pairwise_cons.mp hs2).2
        (fun x hx y hy hxy hyx =>
          hanti x (List.mem_cons_of_mem a hx) y (List.mem_cons_of_mem a hy)
            hxy hyx)]

theorem build_eq (m : List (List Char × List Char)) :
    build_url_search_params m
      = joinSep '&' ((m.map serializePair).mergeSort pairLe) := rfl

/-- The builder's output does not depend on the iteration order provided no
two distinct entries have case-insensitively equal serializations. -/
theorem build_perm_eq (l1 l2 : List (List Char × List Char))
    (hperm : l1.Perm l2)
    (hinj : ∀ p ∈ l1, ∀ q ∈ l1,
      toLowerChars (serializePair p) = toLowerChars (serializePair q) →
      serializePair p = serializePair q) :
    build_url_search_params l1 = build_url_search_params l2 := by
  rw [build_eq, build_eq]
  congr 1
  apply sorted_perm_unique pairLe
  · exact ((List.mergeSort_perm (l1.map serializePair) pairLe).trans
      (hperm.map serializePair)).trans
      (List.mergeSort_perm (l2.map serializePair) pairLe).symm
  · exact (List.sorted_mergeSort pairLe_trans
      (fun a b => pairLe_total a b) (l1.map serializePair)).imp (fun h => h)
  · exact (List.sorted_mergeSort pairLe_trans
      (fun a b => pairLe_total a b) (l2.map serializePair)).imp (fun h => h)
  · intro x hx y hy hxy hyx
    rw [List.mem_mergeSort] at hx hy
    obtain ⟨p, hp, rfl⟩ := List.mem_map.mp hx
    obtain ⟨q, hq, rfl⟩ := List.mem_map.mp hy
    exact hinj p hp q hq (pairLe_antisymm hxy hyx)

/-- Building a two-entry map whose first serialization is `≤` the second
keeps the given order (the stable sort does not swap them). -/
theorem build_two (p q : List Char × List Char)
    (hpair : pairLe (serializePair p) (serializePair q) = true) :
    build_url_search_params [p, q]
      = serializePair p ++ '&' :: serializePair q := by
  rw [build_eq, List.map_cons, List.map_cons, List.map_nil]
  rw [List.mergeSort_of_sorted
    (List.pairwise_cons.mpr
      ⟨fun b hb => by rw [List.mem_singleton.mp hb]; exact hpair,
       List.pairwise_singleton _ _⟩)]
  rfl

/-! ### Parsing the builder's output -/

theorem build_empty : build_url_search_params [] = [] := by
  rw [build_eq, List.map_nil, List.mergeSort_nil]
  rfl

theorem parse_of_whitespace {s : List Char} (h : ∀ c ∈ s, c.isWhitespace = true) :
    parse_url_search_params s = [] := by
  rw [parse_eq_parseFold, if_pos ((trimBoth_eq_nil_iff s).mpr h)]

/-- The round trip `parse ∘ build` recovers the mapping, up to order, when
all keys are nonempty and distinct and no key or value contains a character
of the escape table. -/
theorem parse_build_perm (m : List (List Char × List Char))
    (hnd : (m.map Prod.fst).Nodup)
    (hne : ∀ p ∈ m, p.1 ≠ [])
    (hchars : ∀ p ∈ m, (∀ c ∈ p.1, c ∉ escapeSet) ∧ (∀ c ∈ p.2, c ∉ escapeSet)) :
    (parse_url_search_params (build_url_search_params m)).Perm m := by
  by_cases hm : m = []
  · subst hm
    rw [build_empty, parse_of_whitespace (by intro c hc; simp at hc)]
  · have hser : ∀ p ∈ m, serializePair p = p.1 ++ '=' :: p.2 := by
      intro p hp
      unfold serializePair
      rw [encode_id (hchars p hp).1, encode_id (hchars p hp).2]
    have hLperm : ((m.map serializePair).mergeSort pairLe).Perm
        (m.map serializePair) := List.mergeSort_perm (m.map serializePair) pairLe
    have hLmem : ∀ t ∈ (m.map serializePair).mergeSort pairLe,
        ∃ p ∈ m, t = serializePair p := by
      intro t ht
      obtain ⟨p, hp, he⟩ := List.mem_map.mp (hLperm.mem_iff.mp ht)
      exact ⟨p, hp, he.symm⟩
    have hamp : ∀ t ∈ (m.map serializePair).mergeSort pairLe, '&' ∉ t := by
      intro t ht hmem
      obtain ⟨p, hp, heq⟩ := hLmem t ht
      rw [heq, hser p hp] at hmem
      rcases List.mem_append.mp hmem with h1 | h2
      · exact (hchars p hp).1 '&' h1 (by decide)
      · rcases List.mem_cons.mp h2 with h3 | h4
        · exact absurd h3 (by decide)
        · exact (hchars p hp).2 '&' h4 (by decide)
    have hLne : (m.map serializePair).mergeSort pairLe ≠ [] := by
      intro h
      have h2 : m.map serializePair = [] := List.Perm.eq_nil (h ▸ hLperm).symm
      exact hm (List.map_eq_nil_iff.mp h2)
    have hsplit : splitOnChar '&' (build_url_search_params m)
        = (m.map serializePair).mergeSort pairLe := by
      rw [build_eq]
      exact splitOnChar_joinSep '&' _ hLne hamp
    have htrim : trimBoth (build_url_search_params m) ≠ [] := by
      obtain ⟨t0, ht0⟩ := List.exists_mem_of_ne_nil _ hLne
      obtain ⟨p, hp, he⟩ := hLmem t0 ht0
      have heq : '=' ∈ t0 := by
        rw [he, hser p hp]
        exact List.mem_append.mpr (Or.inr (List.mem_cons_self '=' p.2))
      have hmem : '=' ∈ build_url_search_params m := by
        rw [build_eq]
        exact mem_joinSep_of_mem ht0 heq
      exact trimBoth_ne_nil hmem (by decide)
    have hkeys : ∀ t ∈ (m.map serializePair).mergeSort pairLe,
        (splitOnChar '=' t).headD [] ≠ [] := by
      intro t ht
      obtain ⟨p, hp, heq⟩ := hLmem t ht
      rw [heq, hser p hp]
      rw [splitOnChar_append_sep '=' p.1 p.2
        (fun h => (hchars p hp).1 '=' h (by decide))]
      rw [List.headD_cons]
      exact hne p hp
    have hmapKV : (((m.map serializePair).mergeSort pairLe).map tokenKV).Perm m := by
      have h1 := hLperm.map tokenKV
      rw [List.map_map] at h1
      have h2 : m.map (tokenKV ∘ serializePair) = m := by
        have hpt : ∀ p ∈ m, (tokenKV ∘ serializePair) p = p := by
          intro p hp
          show tokenKV (serializePair p) = p
          rw [hser p hp,
            tokenKV_of_pair p.1 p.2
              (fun h => (hchars p hp).1 '=' h (by decide))
              (fun h => (hchars p hp).2 '=' h (by decide)),
            decode_id (fun h => (hchars p hp).1 '%' h (by decide)),
            decode_id (fun h => (hchars p hp).2 '%' h (by decide))]
        rw [List.map_congr_left hpt]
        exact List.map_id' m
      rw [h2] at h1
      exact h1
    have hndL : (([] ++ ((m.map serializePair).mergeSort pairLe).map tokenKV).map
        Prod.fst).Nodup := by
      rw [List.nil_append]
      exact (List.Perm.nodup_iff (hmapKV.map Prod.fst)).mpr hnd
    rw [parse_eq_parseFold, if_neg htrim, hsplit,
      parseFold_tokens _ [] hkeys hndL, List.nil_append]
    exact hmapKV

/-- Splitting a token only at its first and second `=`: the raw key is the
text before the first `=`, the raw value the text between the first and the
second, and everything after the second `=` is discarded. -/
theorem parseFold_nil (acc : List (List Char × List Char)) :
    parseFold acc [] = acc := rfl

theorem parse_single_token (k a b : List Char)
    (hk : k ≠ []) (hk1 : '=' ∉ k) (hk2 : '&' ∉ k)
    (ha1 : '=' ∉ a) (ha2 : '&' ∉ a) (hb : '&' ∉ b) :
    parse_url_search_params (k ++ '=' :: (a ++ '=' :: b))
      = [(decode_uri_component k, decode_uri_component a)] := by
  have hamp : '&' ∉ (k ++ '=' :: (a ++ '=' :: b)) := by
    intro h
    rcases List.mem_append.mp h with h1 | h2
    · exact hk2 h1
    · rcases List.mem_cons.mp h2 with h3 | h4
      · exact absurd h3 (by decide)
      · rcases List.mem_append.mp h4 with h5 | h6
        · exact ha2 h5
        · rcases List.mem_cons.mp h6 with h7 | h8
          · exact absurd h7 (by decide)
          · exact hb h8
  have hsplitEq : splitOnChar '=' (k ++ '=' :: (a ++ '=' :: b))
      = k :: a :: splitOnChar '=' b := by
    rw [splitOnChar_append_sep '=' k _ hk1, splitOnChar_append_sep '=' a b ha1]
  have htrim : trimBoth (k ++ '=' :: (a ++ '=' :: b)) ≠ [] :=
    trimBoth_ne_nil (List.mem_append.mpr (Or.inr (List.mem_cons_self '=' _)))
      (by decide)
  rw [parse_eq_parseFold, if_neg htrim, splitOnChar_not_mem hamp]
  have hkey : (splitOnChar '=' (k ++ '=' :: (a ++ '=' :: b))).headD [] ≠ [] := by
    rw [hsplitEq, List.headD_cons]
    exact hk
  rw [parseFold_cons [] _ [] hkey, parseFold_nil]
  rw [insertKV_not_mem (tokenVal (k ++ '=' :: (a ++ '=' :: b)))
    (by intro h; simp at h)]
  rw [List.nil_append]
  have h1 : tokenKey (k ++ '=' :: (a ++ '=' :: b)) = decode_uri_component k := by
    unfold tokenKey
    rw [hsplitEq, List.headD_cons]
  have h2 : tokenVal (k ++ '=' :: (a ++ '=' :: b)) = decode_uri_component a := by
    unfold tokenVal
    rw [hsplitEq]
    simp only [List.drop_succ_cons, List.drop_zero, List.headD_cons]
  rw [h1, h2]

/-! ### The encoder's output avoids every escaped delimiter except `%` -/

/-- The escape table's characters other than `%`. -/
def escSansPercent : List Char :=
  [' ', '\r', '\n', '!', '"', '#', '$', '&', squote, '(', ')', '*', '+',
   ',', '/', ':', ';', '=', '@', '[', ']']

set_option maxHeartbeats 1600000 in
theorem encChar_avoids (a : Char) :
    ((encChar a).all (fun c => !(decide (c ∈ escSansPercent)))) = true := by
  by_cases h : a ∈ escapeSet
  · exact (by decide : ∀ x ∈ escapeSet,
      ((encChar x).all (fun c => !(decide (c ∈ escSansPercent)))) = true) a h
  · rw [encChar_of_not_mem h]
    simp only [List.all_cons, List.all_nil, Bool.and_true, Bool.not_eq_true']
    rw [decide_eq_false_iff_not]
    intro hmem
    exact h ((by decide : ∀ x ∈ escSansPercent, x ∈ escapeSet) a hmem)

theorem encode_avoids (s : List Char) :
    ((encode_uri_component s).all (fun c => !(decide (c ∈ escSansPercent)))) = true := by
  rw [encode_flatMap, List.all_flatMap]
  exact List.all_eq_true.mpr (fun x _ => encChar_avoids x)

/-! ### The concrete strings of the library's own round-trip test -/

/-- The input of the `encode_decode` test in the source (a string containing
every character of the escape table, plus `?`, in both orders). -/
def bigInput : List Char :=
  ['\r', '\n', ' ', '"', '%', '!', '#', '$', '&', squote, '(', ')', '*', '+',
   ',', '/', ':', ';', '=', '?', '@', '[', ']', ']', '[', '@', '?', '=', ';',
   ':', '/', ',', '+', '*', ')', '(', squote, '&', '$', '#', '!', '%', '"',
   ' ', '\r', '\n']

/-- The encoded form asserted by the `encode_decode` test in the source. -/
def bigEncoded : List Char :=
  "%0D%0A%20%22%25%21%23%24%26%27%28%29%2A%2B%2C%2F%3A%3B%3D?%40%5B%5D%5D%5B%40?%3D%3B%3A%2F%2C%2B%2A%29%28%27%26%24%23%21%25%22%20%0D%0A".toList

/-! ### The claims -/

/-- C1, counterexample: a mapping with the empty key (whose characters are
vacuously outside the reserved set) is not recovered by `parse ∘ build`:
the builder emits `=v` and the parser drops the empty-key token, so the
round trip loses the entry. -/
theorem C1_counterexample :
    build_url_search_params [(([] : List Char), ['v'])] = ['=', 'v']
    ∧ parse_url_search_params ['=', 'v'] = []
    ∧ ¬ (parse_url_search_params (build_url_search_params
        [(([] : List Char), ['v'])])).Perm [(([] : List Char), ['v'])] := by
  have hb : build_url_search_params [(([] : List Char), ['v'])] = ['=', 'v'] := by
    rw [build_eq, List.map_cons, List.map_nil, List.mergeSort_singleton]
    decide
  refine ⟨hb, by decide, ?_⟩
  rw [hb]
  intro h
  have hlen := h.length_eq
  rw [show parse_url_search_params ['=', 'v'] = [] from by decide] at hlen
  simp at hlen

/-- C1 (amended with the nonempty-key proviso the counterexample forces):
for every mapping with pairwise-distinct, nonempty keys whose keys and
values contain only characters outside the reserved/escaped set,
`parse_url_search_params (build_url_search_params m)` equals `m` as a set
of key-value pairs (it is a permutation of `m`). -/
theorem C1_parse_build_roundtrip (m : List (List Char × List Char))
    (hnd : (m.map Prod.fst).Nodup)
    (hne : ∀ p ∈ m, p.1 ≠ [])
    (hchars : ∀ p ∈ m, (∀ c ∈ p.1, c ∉ escapeSet) ∧ (∀ c ∈ p.2, c ∉ escapeSet)) :
    (parse_url_search_params (build_url_search_params m)).Perm m :=
  parse_build_perm m hnd hne hchars

theorem C1_witness :
    ((([(['k'], ['v']), (['a'], ([] : List Char))]).map Prod.fst).Nodup)
    ∧ (parse_url_search_params (build_url_search_params
        [(['k'], ['v']), (['a'], ([] : List Char))])).Perm
        [(['k'], ['v']), (['a'], ([] : List Char))] :=
  ⟨by decide,
   C1_parse_build_roundtrip [(['k'], ['v']), (['a'], ([] : List Char))]
     (by decide) (by decide) (by decide)⟩

set_option maxRecDepth 10000 in
/-- C2: for every string made only of characters of the escaped set,
`decode ∘ encode` is the identity; in particular the library's own test
string encodes to the expected escape string and decodes back exactly. -/
theorem C2_encode_decode_roundtrip :
    (∀ s : List Char, (∀ c ∈ s, c ∈ escapeSet) →
      decode_uri_component (encode_uri_component s) = s)
    ∧ encode_uri_component bigInput = bigEncoded
    ∧ decode_uri_component bigEncoded = bigInput :=
  ⟨fun _ h => decode_encode_escape h, by decide, by decide⟩

theorem C2_witness :
    decode_uri_component (encode_uri_component escapeSet) = escapeSet :=
  C2_encode_decode_roundtrip.1 escapeSet (fun _ hc => hc)

/-- C3, counterexample: on `"k=a=b"` the parser associates `"k"` with
`"a"`, not with `"a=b"`: the text after the second `=` is discarded, so
the claim that the value is everything after the first `=` fails. -/
theorem C3_counterexample :
    parse_url_search_params ("k=a=b".toList) = [(['k'], ['a'])]
    ∧ (['k'], "a=b".toList) ∉ parse_url_search_params ("k=a=b".toList) := by
  decide

/-- C3 (amended as the counterexample forces): the parser splits a token at
its first and second `=`: the raw key is the text before the first `=`, the
raw value is the text strictly between the first and the second `=` (or the
rest if no second `=` exists), and any text after the second `=` is
discarded; for `k=a=b` the value of `k` is (the decoding of) `a`. -/
theorem C3_value_between_first_and_second_equals (k a b : List Char)
    (hk : k ≠ []) (hk1 : '=' ∉ k) (hk2 : '&' ∉ k)
    (ha1 : '=' ∉ a) (ha2 : '&' ∉ a) (hb : '&' ∉ b) :
    parse_url_search_params (k ++ '=' :: (a ++ '=' :: b))
      = [(decode_uri_component k, decode_uri_component a)] :=
  parse_single_token k a b hk hk1 hk2 ha1 ha2 hb

theorem C3_witness :
    parse_url_search_params (['k'] ++ '=' :: (['a'] ++ '=' :: ['b'])) = [(['k'], ['a'])] := by
  rw [C3_value_between_first_and_second_equals ['k'] ['a'] ['b']
    (by decide) (by decide) (by decide) (by decide) (by decide) (by decide)]
  decide

/-- C4: contrary to the claim, `decode_uri_component` applies `%25 → %` in
numeric position (eighth of twenty-three, before `%26`–`%5D`), not last;
consequently `"%2526"` cascades: the `%` produced by `%25` merges with the
following `26` and the later `%26` pass turns it into `"&"` instead of
leaving `"%26"`. -/
theorem C4_percent25_not_last :
    decode_uri_component ("%2526".toList) = ['&']
    ∧ decode_uri_component ("%2526".toList) ≠ "%26".toList := by
  decide

/-- C5: `encode_uri_component` never encodes `?` (every occurrence passes
through literally), while `decode_uri_component` maps every occurrence of
`%3F` to `?`; both as context-independence equations holding for every
input string. -/
theorem C5_question_mark_asymmetry :
    (∀ s t : List Char, encode_uri_component (s ++ '?' :: t)
        = encode_uri_component s ++ '?' :: encode_uri_component t)
    ∧ (∀ s t : List Char, decode_uri_component (s ++ '%' :: '3' :: 'F' :: t)
        = decode_uri_component s ++ '?' :: decode_uri_component t) :=
  ⟨encode_q_split, decode_q_split⟩

/-- C6: the mapping returned by `parse_url_search_params` never contains an
empty-string key, and `parse("=&key2=value2")` is exactly
`{"key2": "value2"}`. -/
theorem C6_no_empty_keys :
    (∀ s : List Char, ∀ p ∈ parse_url_search_params s, p.1 ≠ [])
    ∧ parse_url_search_params ("=&key2=value2".toList)
        = [("key2".toList, "value2".toList)] :=
  ⟨fun s => parse_keys_ne s, by decide⟩

theorem C6_witness :
    (("a".toList, "b".toList) ∈ parse_url_search_params ("a=b".toList))
    ∧ ("a".toList, "b".toList).1 ≠ ([] : List Char) :=
  ⟨by decide,
   C6_no_empty_keys.1 ("a=b".toList) ("a".toList, "b".toList) (by decide)⟩

/-- C7: a percent sequence `%xy` that is not a pattern of the decode table
passes through `decode_uri_component` literally, with the surrounding text
processed independently; in particular `decode("%7E") = "%7E"`. -/
theorem C7_unknown_sequences_untouched :
    (∀ (s t : List Char) (x y : Char), x ≠ '%' → y ≠ '%' →
      (['%', x, y] : List Char) ∉ decPasses.map Prod.fst →
      decode_uri_component (s ++ '%' :: x :: y :: t)
        = decode_uri_component s ++ '%' :: x :: y :: decode_uri_component t)
    ∧ decode_uri_component ("%7E".toList) = "%7E".toList :=
  ⟨fun s t x y hx hy hn => decode_unknown_split s t x y hx hy hn, by decide⟩

theorem C7_witness :
    decode_uri_component (([] : List Char) ++ '%' :: '7' :: 'E' :: [])
      = decode_uri_component [] ++ '%' :: '7' :: 'E' :: decode_uri_component [] :=
  C7_unknown_sequences_untouched.1 [] [] '7' 'E' (by decide) (by decide) (by decide)

/-- C8, counterexample: the builder's output does depend on the iteration
order of the mapping: the keys `"A"` and `"a"` (distinct HashMap keys) give
serializations that compare equal case-insensitively, and the stable sort
keeps them in iteration order, so the two orders of the same mapping build
different strings. -/
theorem C8_counterexample :
    build_url_search_params [("A".toList, "x".toList), ("a".toList, "x".toList)]
      = "A=x&a=x".toList
    ∧ build_url_search_params [("a".toList, "x".toList), ("A".toList, "x".toList)]
      = "a=x&A=x".toList
    ∧ ([("A".toList, "x".toList), ("a".toList, "x".toList)]).Perm
        [("a".toList, "x".toList), ("A".toList, "x".toList)]
    ∧ (([("A".toList, "x".toList), ("a".toList, "x".toList)]).map Prod.fst).Nodup
    ∧ "A=x&a=x".toList ≠ "a=x&A=x".toList := by
  refine ⟨?_, ?_, List.Perm.swap _ _ _, by decide, by decide⟩
  · rw [build_two ("A".toList, "x".toList) ("a".toList, "x".toList) (by decide)]
    decide
  · rw [build_two ("a".toList, "x".toList) ("A".toList, "x".toList) (by decide)]
    decide

/-- C8 (amended as the counterexample forces): the builder serializes each
entry as `encoded-key = encoded-value`, sorts the pair-strings
case-insensitively with a stable sort and joins with `&`; its output is the
same for every iteration order of the mapping, provided the serialized
pair-strings contain only ASCII characters and no two distinct entries have
case-insensitively equal serializations.  The ASCII hypothesis confines the
statement to inputs on which `toLowerChars` coincides with Rust's Unicode
`str::to_lowercase`: outside ASCII the source's comparator can equate
serializations (such as those of the keys `Ä` and `ä`) that ASCII folding
distinguishes, and there the real output again depends on iteration
order. -/
theorem C8_build_order_independent (l1 l2 : List (List Char × List Char))
    (hperm : l1.Perm l2)
    (_ascii : ∀ p ∈ l1, ∀ c ∈ serializePair p, c.toNat < 128)
    (hinj : ∀ p ∈ l1, ∀ q ∈ l1,
      toLowerChars (serializePair p) = toLowerChars (serializePair q) →
      serializePair p = serializePair q) :
    build_url_search_params l1 = build_url_search_params l2 :=
  build_perm_eq l1 l2 hperm hinj

theorem C8_witness :
    build_url_search_params [(['k'], ['1']), (['b'], ['2'])]
      = build_url_search_params [(['b'], ['2']), (['k'], ['1'])] :=
  C8_build_order_independent [(['k'], ['1']), (['b'], ['2'])]
    [(['b'], ['2']), (['k'], ['1'])] (List.Perm.swap _ _ _) (by decide) (by decide)

/-- C9: building the empty mapping yields the empty string, and parsing the
empty string — or any whitespace-only string — yields the empty mapping. -/
theorem C9_empty_boundary :
    build_url_search_params [] = []
    ∧ parse_url_search_params [] = []
    ∧ ∀ s : List Char, (∀ c ∈ s, c.isWhitespace = true) →
        parse_url_search_params s = [] :=
  ⟨build_empty, by decide, fun _ h => parse_of_whitespace h⟩

theorem C9_witness :
    parse_url_search_params [' ', '\r'] = [] :=
  C9_empty_boundary.2.2 [' ', '\r'] (by decide)

/-- C10: the output of `encode_uri_component` never contains an
escaped-set character other than `%` — no space, CR, LF, `!`, `"`, `#`,
`$`, `&`, `'`, `(`, `)`, `*`, `+`, `,`, `/`, `:`, `;`, `=`, `@`, `[` or
`]`; in particular no literal `&` or `=` ever appears in an encoded
component. -/
theorem C10_encoded_avoids_delimiters (s : List Char) :
    ((encode_uri_component s).all (fun c => !(decide (c ∈ escSansPercent)))) = true :=
  encode_avoids s

end UrlSearchParams
